import Mathlib

/-!
Verification of the spec-list file-hierarchy builder
(`packages/runner-ct/src/app/SpecList/makeFileHierarchy.ts`).

The TypeScript module is shallowly embedded below.  JavaScript string
primitives (`split('/')`, `join('/')`, `includes('.')`, `startsWith`,
`charAt` counting) are modelled by executable functions on the underlying
character lists, with the exact JS semantics (in particular
`''.split('/') = ['']` and no removal of empty chunks).
-/

/-- JS `str.split(sep)` on character lists: splits on every occurrence of
`sep`, keeping empty chunks; the result is always non-empty. -/
def splitChars (sep : Char) : List Char → List (List Char)
  | [] => [[]]
  | c :: cs =>
    if c = sep then [] :: splitChars sep cs
    else
      match splitChars sep cs with
      | [] => [[c]]
      | h :: t => (c :: h) :: t

/-- JS `str.split('/')` (single-character separator). -/
def jsSplit (s : String) (sep : Char) : List String :=
  (splitChars sep s.data).map (fun l => String.mk l)

/-- JS `arr.join('/')`. -/
def joinSlash : List String → String
  | [] => ""
  | [x] => x
  | x :: y :: t => x ++ ("/") ++ joinSlash (y :: t)

/-- JS `str.includes(c)` for a single character. -/
def jsIncludes (s : String) (c : Char) : Bool :=
  s.data.contains c

/-- JS `str.startsWith(p)`. -/
def jsStartsWith (s p : String) : Bool :=
  p.data.isPrefixOf s.data

/-- `charCount` from the source: counts occurrences of `letter` in `str`
by scanning every position. -/
def charCount (str : String) (letter : Char) : Nat :=
  str.data.count letter

/-- The folder paths contributed by one entry of the input (body of the
`for` loop of `getAllFolders`): split on `/`, drop the last segment when
it looks like a file (contains a `.`), then emit every non-empty prefix
of the remaining segment list, joined by `/`. -/
def dirsOfPath (file : String) : List String :=
  let path := jsSplit file '/'
  if path.length ≠ 0 then
    let hasFileNode := jsIncludes (path.getLastD ("")) '.'
    let dirOnly := if hasFileNode then path.dropLast else path
    (List.range dirOnly.length).map (fun i => joinSlash (dirOnly.take (i + 1)))
  else []

/-- Insertion-ordered `Set.add`: JS `Set` keeps first-insertion order and
ignores duplicates. -/
def addUnique (acc : List String) (d : String) : List String :=
  if d ∈ acc then acc else acc ++ [d]

/-- `getAllFolders` from the source: all nested directories implied by the
input paths, in first-discovery order, without duplicates. -/
def getAllFolders (files : List String) : List String :=
  files.foldl (fun dirs file => (dirsOfPath file).foldl addUnique dirs) []

/-- Lookup in the insertion-ordered record modelling
`Record<string, string[]>`. -/
def lookupVal : List (String × List String) → String → Option (List String)
  | [], _ => none
  | (k', v) :: t, k => if k' = k then some v else lookupVal t k

/-- JS `if (!m[k]) m[k] = [v] else m[k] = m[k].concat(v)`: append `v` to the
entry of the first matching key, or add a new key at the end. -/
def appendAt : List (String × List String) → String → String → List (String × List String)
  | [], k, v => [(k, [v])]
  | (k', vs) :: t, k, v =>
    if k' = k then (k', vs ++ [v]) :: t else (k', vs) :: appendAt t k v

/-- The loop body of `getAllFileNodes`: register a file-looking last
segment under its directory key (`isFileNodeInFolderNode`), and a
root-level file under the sentinel `"/"` key (`isFileNode && isRoot`). -/
def getAllFileNodesStep (allFileNodes : List (String × List String)) (file : String) :
    List (String × List String) :=
  let split := jsSplit file '/'
  let isFileNode := jsIncludes (split.getLastD ("")) '.'
  let isRoot := split.length == 1
  let isFileNodeInFolderNode := decide (split.length > 1) && jsIncludes (split.getLastD ("")) '.'
  let afn1 :=
    if isFileNodeInFolderNode then
      appendAt allFileNodes (joinSlash split.dropLast) (split.getLastD (""))
    else allFileNodes
  if isFileNode && isRoot then appendAt afn1 ("/") file else afn1

/-- `getAllFileNodes` from the source: a record from directory path to the
list of file names directly contained in it, with sentinel root key `"/"`. -/
def getAllFileNodes (files : List String) : List (String × List String) :=
  files.foldl getAllFileNodesStep [(("/"), [])]

/-- The `reduce` body of `foldersByLength`: add `curr` under the key
`charCount(curr, '/')`, creating the key if absent. -/
def foldersByLengthStep (acc : Nat → Option (List String)) (curr : String) :
    Nat → Option (List String) :=
  let count := charCount curr '/'
  match acc count with
  | none => fun n => if n = count then some [curr] else acc n
  | some xs => fun n => if n = count then some (xs ++ [curr]) else acc n

/-- `foldersByLength` from the source: the `reduce` grouping each folder
path by its number of `/` separators.  A `Record<number, string[]>` is
modelled as a function to `Option`: `none` for an absent key. -/
def foldersByLength (allFolderNodes : List String) : Nat → Option (List String) :=
  allFolderNodes.foldl foldersByLengthStep (fun _ => none)

mutual
/-- `TreeNode` of the source (forest variant): the `type` discriminant is
encoded in the constructor (`file` carries `name`, `relative`; `folder`
additionally carries its `files` children). -/
inductive TreeNode where
  | file (name relative : String) : TreeNode
  | folder (name relative : String) (files : TreeNodes) : TreeNode
deriving DecidableEq
/-- A list of `TreeNode`s (children of a folder / the forest). -/
inductive TreeNodes where
  | nil : TreeNodes
  | cons (head : TreeNode) (tail : TreeNodes) : TreeNodes
deriving DecidableEq
end

def TreeNodes.ofList : List TreeNode → TreeNodes
  | [] => .nil
  | x :: xs => .cons x (TreeNodes.ofList xs)

def TreeNodes.append : TreeNodes → TreeNodes → TreeNodes
  | .nil, ys => ys
  | .cons x xs, ys => .cons x (TreeNodes.append xs ys)

/-- One iteration of the `dirs.map` body of `walk`, given the already
computed nested sub-forest: attaches the folder's direct files
(`allFileNodes[dir] || []`, each with `relative = dir + '/' + file`) and
names the folder after its last path segment
(`dir.split('/').reverse()[0]`). -/
def mkFolderNode (allFileNodes : List (String × List String)) (dir : String)
    (nestedDirs : TreeNodes) : TreeNode :=
  let containedFileNodes : List TreeNode :=
    ((lookupVal allFileNodes dir).getD []).map
      (fun file => TreeNode.file file (dir ++ ("/") ++ file))
  TreeNode.folder (((jsSplit dir '/').reverse).getD 0 ("")) dir
    (TreeNodes.append nestedDirs (TreeNodes.ofList containedFileNodes))

/-- `walk` from `makeFileHierarchy`.  The JS recursion descends one depth
level per call and stops when `foldersByLength[depth + 1]` is absent; the
structural `fuel` argument bounds the depth, and `makeFileHierarchy`
supplies the maximal folder depth, so the `0` case can only coincide with
an absent next level. -/
def walk (allFolderNodes : List String) (allFileNodes : List (String × List String)) :
    Nat → List String → Nat → TreeNodes
  | 0, dirs, _ =>
    TreeNodes.ofList (dirs.map (fun dir => mkFolderNode allFileNodes dir TreeNodes.nil))
  | fuel + 1, dirs, depth =>
    TreeNodes.ofList (dirs.map (fun dir =>
      let nestedDirs : TreeNodes :=
        match foldersByLength allFolderNodes (depth + 1) with
        | some xs =>
          walk allFolderNodes allFileNodes fuel
            (xs.filter (fun x => jsStartsWith x dir)) (depth + 1)
        | none => TreeNodes.nil
      mkFolderNode allFileNodes dir nestedDirs))

/-- The largest `/`-count among the discovered folders: an upper bound for
every key of `foldersByLength`, used as recursion fuel for `walk`. -/
def maxSlashCount (folders : List String) : Nat :=
  folders.foldl (fun m f => max m (charCount f '/')) 0

/-- `makeFileHierarchy` from the source: the top-level
`walk(foldersByLength[0])` call (`walk` returns `[]` when handed the
absent-key value, per its `!dirs` guard). -/
def makeFileHierarchy (files : List String) : TreeNodes :=
  let allFolderNodes := getAllFolders files
  let allFileNodes := getAllFileNodes files
  match foldersByLength allFolderNodes 0 with
  | none => TreeNodes.nil
  | some dirs => walk allFolderNodes allFileNodes (maxSlashCount allFolderNodes) dirs 0

/-- `BuildingFile` of the source. -/
structure BFile where
  path : String
  name : String
deriving DecidableEq

mutual
/-- `BuildingFolder` of the source (mutable trie node): `path`, `name`,
direct `files`, and the sub-folder record. -/
inductive BFolder where
  | mk (path name : String) (files : List BFile) (folders : BFolders) : BFolder
deriving DecidableEq
/-- The insertion-ordered `Record<string, BuildingFolder>`. -/
inductive BFolders where
  | nil : BFolders
  | cons (key : String) (folder : BFolder) (tail : BFolders) : BFolders
deriving DecidableEq
end

def BFolder.pathOf : BFolder → String
  | .mk p _ _ _ => p

def BFolder.nameOf : BFolder → String
  | .mk _ n _ _ => n

def BFolder.filesOf : BFolder → List BFile
  | .mk _ _ fs _ => fs

def BFolder.foldersOf : BFolder → BFolders
  | .mk _ _ _ fld => fld

/-- JS `part in parentDirectory.folders` / `parentDirectory.folders[part]`. -/
def lookupFolders : BFolders → String → Option BFolder
  | .nil, _ => none
  | .cons k f t, part => if k = part then some f else lookupFolders t part

/-- `parentDirectory.folders[part] = v`: replace the first entry with the
given key, or append a new entry at the end (JS object insertion order). -/
def setFolder : BFolders → String → BFolder → BFolders
  | .nil, part, v => .cons part v .nil
  | .cons k f t, part, v =>
    if k = part then .cons k v t else .cons k f (setFolder t part v)

/-- The `for (let i = ...)` insertion loop of `buildTree`, one input path at
a time: walk the remaining `parts`, descending into an existing sub-folder
or creating a fresh one (`path` = the accumulated segments joined by `/`),
and append the final segment to the current folder's `files`.  `acc` holds
the segments already consumed (`pathParts.slice(0, i)`). -/
def insertGo : BFolder → List String → List String → String → BFolder
  | folder, _, [], _ => folder
  | .mk p n fs fld, _, [part], filePath => .mk p n (fs ++ [⟨filePath, part⟩]) fld
  | .mk p n fs fld, acc, part :: rest, filePath =>
    let sub :=
      match lookupFolders fld part with
      | some s => s
      | none => .mk (joinSlash (acc ++ [part])) part [] .nil
    .mk p n fs (setFolder fld part (insertGo sub (acc ++ [part]) rest filePath))

/-- The root name computed at the top of `buildTree`: the truthiness
cascade over `rootDirectory.split('/')`
(`lastRootPart ? lastRootPart : (len > 1 ? parts[len-2] : undefined)`,
then `?? '/'`). -/
def rootNameFor (rootDirectory : String) : String :=
  let rootPathParts := jsSplit rootDirectory '/'
  let lastRootPart := rootPathParts.getLastD ("")
  let rootName : Option String :=
    if lastRootPart ≠ "" then some lastRootPart
    else if rootPathParts.length > 1 then
      some (rootPathParts.getD (rootPathParts.length - 2) (""))
    else none
  rootName.getD ("/")

/-- One iteration of the `for (const filePath of filePaths)` loop of
`buildTree`: split the path and run the insertion walk from the root. -/
def insertOne (parent : BFolder) (filePath : String) : BFolder :=
  insertGo parent [] (jsSplit filePath '/') filePath

/-- The root `BuildingFolder` of `buildTree` after all insertions. -/
def buildRoot (filePaths : List String) (rootDirectory : String) : BFolder :=
  filePaths.foldl insertOne (BFolder.mk rootDirectory (rootNameFor rootDirectory) [] .nil)

mutual
/-- `TreeFolder | TreeFile` of the source (trie variant's output): the
presentation tree with `id`/`name` fields. -/
inductive TreeFS where
  | folder (id name : String) (children : TreeFSs) : TreeFS
  | file (id name : String) : TreeFS
deriving DecidableEq
/-- Children list of a `TreeFolder`. -/
inductive TreeFSs where
  | nil : TreeFSs
  | cons (head : TreeFS) (tail : TreeFSs) : TreeFSs
deriving DecidableEq
end

def TreeFSs.ofList : List TreeFS → TreeFSs
  | [] => .nil
  | x :: xs => .cons x (TreeFSs.ofList xs)

def TreeFSs.append : TreeFSs → TreeFSs → TreeFSs
  | .nil, ys => ys
  | .cons x xs, ys => .cons x (TreeFSs.append xs ys)

mutual
/-- `convertTree` from the source: a `BuildingFolder` becomes a
`TreeFolder` with `id = path`, children = converted sub-folders (in record
order) followed by the files mapped to `TreeFile`s. -/
def convertTree : BFolder → TreeFS
  | .mk path name files folders =>
    .folder path name
      (TreeFSs.append (convertFolders folders)
        (TreeFSs.ofList (files.map (fun f => TreeFS.file f.path f.name))))
/-- `Object.values(folders).map(convertTree)`. -/
def convertFolders : BFolders → TreeFSs
  | .nil => .nil
  | .cons _ f t => .cons (convertTree f) (convertFolders t)
end

/-- `buildTree` from the source. -/
def buildTree (filePaths : List String) (rootDirectory : String) : TreeFS :=
  convertTree (buildRoot filePaths rootDirectory)

def TreeFS.nameOf : TreeFS → String
  | .folder _ n _ => n
  | .file _ n => n

def TreeFS.idOf : TreeFS → String
  | .folder i _ _ => i
  | .file i _ => i

def TreeFS.childrenOf : TreeFS → TreeFSs
  | .folder _ _ cs => cs
  | .file _ _ => .nil

mutual
/-- The `relative` fields of all `FileNode` leaves of a forest node, in
tree order. -/
def fileRelativesNode : TreeNode → List String
  | .file _ relative => [relative]
  | .folder _ _ fs => fileRelativesList fs
def fileRelativesList : TreeNodes → List String
  | .nil => []
  | .cons h t => fileRelativesNode h ++ fileRelativesList t
end

mutual
/-- For every `FileNode` leaf: its `relative` paired with the number of
enclosing `FolderNode`s above it (within the given node). -/
def fileDepthsNode : TreeNode → List (String × Nat)
  | .file _ relative => [(relative, 0)]
  | .folder _ _ fs => (fileDepthsList fs).map (fun p => (p.1, p.2 + 1))
def fileDepthsList : TreeNodes → List (String × Nat)
  | .nil => []
  | .cons h t => fileDepthsNode h ++ fileDepthsList t
end

/-- Pairwise distinctness of a list of names. -/
def nodupB : List String → Bool
  | [] => true
  | x :: xs => !(xs.contains x) && nodupB xs

/-- The `name`s of all nodes in a children list. -/
def childNames : TreeFSs → List String
  | .nil => []
  | .cons h t => TreeFS.nameOf h :: childNames t

/-- The `name`s of the `TreeFolder`s in a children list. -/
def folderChildNames : TreeFSs → List String
  | .nil => []
  | .cons (.folder _ n _) t => n :: folderChildNames t
  | .cons (.file _ _) t => folderChildNames t

mutual
/-- Sibling uniqueness over all node kinds: at every folder of the tree,
the children's `name`s are pairwise distinct. -/
def allSiblingsDistinctB : TreeFS → Bool
  | .file _ _ => true
  | .folder _ _ cs => nodupB (childNames cs) && allSiblingsDistinctList cs
def allSiblingsDistinctList : TreeFSs → Bool
  | .nil => true
  | .cons h t => allSiblingsDistinctB h && allSiblingsDistinctList t
end

mutual
/-- Sibling uniqueness restricted to folder nodes: at every folder of the
tree, the folder-children's `name`s are pairwise distinct. -/
def folderSiblingsDistinctB : TreeFS → Bool
  | .file _ _ => true
  | .folder _ _ cs => nodupB (folderChildNames cs) && folderSiblingsDistinctList cs
def folderSiblingsDistinctList : TreeFSs → Bool
  | .nil => true
  | .cons h t => folderSiblingsDistinctB h && folderSiblingsDistinctList t
end

mutual
/-- The `id` fields of all `TreeFile` leaves, in tree order. -/
def leafIds : TreeFS → List String
  | .file i _ => [i]
  | .folder _ _ cs => leafIdsList cs
def leafIdsList : TreeFSs → List String
  | .nil => []
  | .cons h t => leafIds h ++ leafIdsList t
end

mutual
/-- The `path` fields of all `BuildingFile` entries in a trie, sub-folders
first (matching `convertTree`'s children order). -/
def trieFiles : BFolder → List String
  | .mk _ _ files folders => trieOfFolders folders ++ files.map (fun f => f.path)
def trieOfFolders : BFolders → List String
  | .nil => []
  | .cons _ f t => trieFiles f ++ trieOfFolders t
end

/-- Navigate a trie along a list of sub-folder keys and return the `files`
list of the folder reached. -/
def filesAtParts : BFolder → List String → Option (List BFile)
  | f, [] => some (BFolder.filesOf f)
  | f, p :: ps =>
    match lookupFolders (BFolder.foldersOf f) p with
    | some sub => filesAtParts sub ps
    | none => none

/-- Membership converted to ordinary lists. -/
def TreeFSs.toList : TreeFSs → List TreeFS
  | .nil => []
  | .cons h t => h :: TreeFSs.toList t

mutual
/-- The `name` fields of all `FileNode` leaves of a forest node, in tree
order. -/
def fileNamesNode : TreeNode → List String
  | .file name _ => [name]
  | .folder _ _ fs => fileNamesList fs
def fileNamesList : TreeNodes → List String
  | .nil => []
  | .cons h t => fileNamesNode h ++ fileNamesList t
end

/-- Root-folder name as the specification words it: "derived from the last
non-empty segment of the given root directory path; if the root directory
path has no segments, the name is the literal placeholder `/`". -/
def specRootName (rootDirectory : String) : String :=
  match (jsSplit rootDirectory '/').filter (fun s => s ≠ ("")) with
  | [] => ("/")
  | l => l.getLastD ("")

/-- The concrete input sequence of the spec's forest-variant scenario. -/
def demoFiles : List String :=
  [("foo.js"), ("foo/y/bar.js"), ("foo/bar"), ("a/b/c")]

/-- JS `part in parentDirectory.folders`. -/
def hasKeyB : BFolders → String → Bool
  | .nil, _ => false
  | .cons k _ t, part => k == part || hasKeyB t part

/-- The record keys are pairwise distinct (true of every JS object). -/
def keyNodupB : BFolders → Bool
  | .nil => true
  | .cons k _ t => !(hasKeyB t k) && keyNodupB t

/-- The keys of a sub-folder record, in order. -/
def keysOfB : BFolders → List String
  | .nil => []
  | .cons k _ t => k :: keysOfB t

mutual
/-- Structural invariant of the building trie: at every folder, the
sub-folder record has pairwise-distinct keys and each sub-folder's `name`
equals its key. -/
def goodB : BFolder → Bool
  | .mk _ _ _ fld => keyNodupB fld && goodFoldersB fld
def goodFoldersB : BFolders → Bool
  | .nil => true
  | .cons k f t => (BFolder.nameOf f == k) && goodB f && goodFoldersB t
end

/-- The slash-free-values invariant of the file-node record. -/
def NoSlashVals (m : List (String × List String)) : Prop :=
  ∀ k vs, lookupVal m k = some vs → ∀ v ∈ vs, v.data.contains '/' = false

/-! ## Claim theorems: concrete scenarios -/

/-- C1 (counterexample): on input `['foo.js']` the forest built by
`makeFileHierarchy` is empty, so the input path appears in no leaf at all —
refuting "each input path appears exactly once as a leaf ... for both
strategies". -/
theorem c1_counterexample :
    fileRelativesList (makeFileHierarchy [("foo.js")]) = [] ∧
      makeFileHierarchy [("foo.js")] = TreeNodes.nil := by
  constructor <;> decide

/-- C2 (counterexample): `buildTree(['a/b', 'a'], 'root')` puts a folder
named `a` and a file named `a` side by side under the root, so two sibling
nodes share a `name`. -/
theorem c2_counterexample :
    childNames (TreeFS.childrenOf (buildTree [("a/b"), ("a")] ("root"))) = [("a"), ("a")] ∧
      allSiblingsDistinctB (buildTree [("a/b"), ("a")] ("root")) = false := by
  constructor <;> decide

/-- C3 (counterexample): on the scenario input the only `FileNode` leaf of
the forest is `bar.js`; `foo/bar` (no dot in its last segment) is
classified as a directory, so no file named `bar` exists — refuting "... and
a file 'bar'". -/
theorem c3_counterexample :
    fileNamesList (makeFileHierarchy demoFiles) = [("bar.js")] := by decide

/-- C3 (amended): on input `['foo.js', 'foo/y/bar.js', 'foo/bar', 'a/b/c']`,
`getAllFolders` returns exactly `{foo, foo/y, foo/bar, a, a/b, a/b/c}`; the
forest is a folder `foo` containing nested folder `y` (with file `bar.js`)
and an empty *folder* `bar`, plus a folder `a` containing nested folder `b`
containing nested empty folder `c`; and the sentinel-root file list of
`getAllFileNodes` is `['foo.js']`. -/
theorem c3_amended :
    getAllFolders demoFiles =
        [("foo"), ("foo/y"), ("foo/bar"), ("a"), ("a/b"), ("a/b/c")] ∧
      makeFileHierarchy demoFiles =
        TreeNodes.cons
          (TreeNode.folder ("foo") ("foo")
            (TreeNodes.cons
              (TreeNode.folder ("y") ("foo/y")
                (TreeNodes.cons (TreeNode.file ("bar.js") ("foo/y/bar.js")) TreeNodes.nil))
              (TreeNodes.cons (TreeNode.folder ("bar") ("foo/bar") TreeNodes.nil)
                TreeNodes.nil)))
          (TreeNodes.cons
            (TreeNode.folder ("a") ("a")
              (TreeNodes.cons
                (TreeNode.folder ("b") ("a/b")
                  (TreeNodes.cons (TreeNode.folder ("c") ("a/b/c") TreeNodes.nil)
                    TreeNodes.nil))
                TreeNodes.nil))
            TreeNodes.nil) ∧
      lookupVal (getAllFileNodes demoFiles) ("/") = some [("foo.js")] := by
  refine ⟨by decide, by decide, by decide⟩

/-- C4: `buildTree(['x/y/z.js'], 'root')` returns exactly the tree
`{id: root, name: root, children: [{id: x, name: x, children: [{id: x/y,
name: y, children: [{id: x/y/z.js, name: z.js}]}]}]}`. -/
theorem c4_buildTree_single_path :
    buildTree [("x/y/z.js")] ("root") =
      TreeFS.folder ("root") ("root")
        (TreeFSs.cons
          (TreeFS.folder ("x") ("x")
            (TreeFSs.cons
              (TreeFS.folder ("x/y") ("y")
                (TreeFSs.cons (TreeFS.file ("x/y/z.js") ("z.js")) TreeFSs.nil))
              TreeFSs.nil))
          TreeFSs.nil) := by decide

/-- C5 (counterexample): for `rootDirectory = 'a//'` the last non-empty
segment is `a`, but `buildTree` names the root with the (empty)
second-to-last split segment, not with the last non-empty one. -/
theorem c5_counterexample :
    TreeFS.nameOf (buildTree [] ("a//")) = ("") ∧ specRootName ("a//") = ("a") := by
  constructor <;> decide

/-- C6: on an empty input sequence neither strategy fails:
`makeFileHierarchy([])` returns the empty forest and
`buildTree([], 'root')` returns a root `TreeFolder` named `root` with no
children. -/
theorem c6_empty_input :
    makeFileHierarchy [] = TreeNodes.nil ∧
      buildTree [] ("root") = TreeFS.folder ("root") ("root") TreeFSs.nil := by
  constructor <;> decide

/-! ## String-splitting lemmas -/

theorem splitChars_ne_nil (sep : Char) (l : List Char) : splitChars sep l ≠ [] := by
  induction l with
  | nil => simp [splitChars]
  | cons c cs ih =>
    simp only [splitChars]
    split
    · simp
    · split
      · simp
      · simp

theorem splitChars_append (sep : Char) (xs ys : List Char) :
    splitChars sep (xs ++ sep :: ys) = splitChars sep xs ++ splitChars sep ys := by
  induction xs with
  | nil => simp [splitChars]
  | cons c cs ih =>
    by_cases h : c = sep
    · simp [splitChars, h, ih]
    · rw [List.cons_append]
      simp only [splitChars, h, if_false, ih]
      cases heq : splitChars sep cs with
      | nil => exact absurd heq (splitChars_ne_nil sep cs)
      | cons h0 t0 => simp

theorem mem_splitChars_not_sep (sep : Char) :
    ∀ (l : List Char), ∀ chunk ∈ splitChars sep l, sep ∉ chunk
  | [], chunk, hm => by
    simp only [splitChars, List.mem_singleton] at hm
    simp [hm]
  | c :: cs, chunk, hm => by
    by_cases h : c = sep
    · rw [splitChars, if_pos h] at hm
      rcases List.mem_cons.mp hm with rfl | hm'
      · simp
      · exact mem_splitChars_not_sep sep cs chunk hm'
    · rw [splitChars, if_neg h] at hm
      cases heq : splitChars sep cs with
      | nil => exact absurd heq (splitChars_ne_nil sep cs)
      | cons h0 t0 =>
        rw [heq] at hm
        rcases List.mem_cons.mp hm with rfl | hm'
        · intro hmem
          rcases List.mem_cons.mp hmem with h1 | hmem'
          · exact h h1.symm
          · exact mem_splitChars_not_sep sep cs h0 (by rw [heq]; exact List.mem_cons_self _ _) hmem'
        · exact mem_splitChars_not_sep sep cs chunk (by rw [heq]; exact List.mem_cons_of_mem _ hm')

theorem splitChars_no_sep (sep : Char) (l : List Char) (h : sep ∉ l) :
    splitChars sep l = [l] := by
  induction l with
  | nil => rfl
  | cons c cs ih =>
    have hc : ¬ c = sep := fun e => h (e ▸ List.mem_cons_self c cs)
    have hcs : sep ∉ cs := fun m => h (List.mem_cons_of_mem _ m)
    rw [splitChars, if_neg hc, ih hcs]

theorem splitChars_length (sep : Char) (l : List Char) :
    (splitChars sep l).length = l.count sep + 1 := by
  induction l with
  | nil => simp [splitChars]
  | cons c cs ih =>
    by_cases h : c = sep
    · subst h
      simp [splitChars, List.count_cons, ih]
    · rw [splitChars, if_neg h]
      cases heq : splitChars sep cs with
      | nil => exact absurd heq (splitChars_ne_nil sep cs)
      | cons h0 t0 =>
        rw [heq] at ih
        show ((c :: h0) :: t0).length = List.count sep (c :: cs) + 1
        rw [List.count_cons_of_ne (Ne.symm h)]
        simp only [List.length_cons] at ih ⊢
        omega

theorem string_data_append (a b : String) : (a ++ b).data = a.data ++ b.data := by
  cases a
  cases b
  rfl

theorem jsSplit_glue (a b : String) :
    jsSplit (a ++ ("/") ++ b) '/' = jsSplit a '/' ++ jsSplit b '/' := by
  unfold jsSplit
  rw [string_data_append, string_data_append]
  have h : (a.data ++ (("/") : String).data) ++ b.data = a.data ++ '/' :: b.data := by
    simp [show (("/") : String).data = ['/'] from rfl]
  rw [h, splitChars_append, List.map_append]

theorem jsSplit_ne_nil (s : String) (sep : Char) : jsSplit s sep ≠ [] := by
  unfold jsSplit
  intro h
  exact splitChars_ne_nil sep s.data (List.map_eq_nil_iff.mp h)

theorem jsSplit_length (s : String) : (jsSplit s '/').length = charCount s '/' + 1 := by
  unfold jsSplit charCount
  rw [List.length_map, splitChars_length]

theorem not_mem_of_contains_eq_false {c : Char} {l : List Char}
    (h : l.contains c = false) : c ∉ l := by
  intro hm
  have hel := List.elem_eq_true_of_mem hm
  unfold List.contains at h
  rw [hel] at h
  simp at h

theorem jsSplit_no_slash (s : String) (h : s.data.contains '/' = false) :
    jsSplit s '/' = [s] := by
  unfold jsSplit
  rw [splitChars_no_sep '/' s.data (not_mem_of_contains_eq_false h)]
  cases s
  rfl

theorem jsSplit_joinSlash :
    ∀ (parts : List String), parts ≠ [] →
      (∀ s ∈ parts, s.data.contains '/' = false) →
      jsSplit (joinSlash parts) '/' = parts
  | [], h, _ => absurd rfl h
  | [x], _, hs => by
    rw [joinSlash, jsSplit_no_slash x (hs x (by simp))]
  | x :: y :: t, _, hs => by
    rw [joinSlash, jsSplit_glue, jsSplit_no_slash x (hs x (by simp)),
      jsSplit_joinSlash (y :: t) (by simp) (fun s m => hs s (List.mem_cons_of_mem _ m))]
    rfl

/-! ## `foldersByLength` characterization -/

theorem foldersByLength_go (n : Nat) :
    ∀ (fs : List String) (acc : Nat → Option (List String)),
      List.foldl foldersByLengthStep acc fs n =
        (if fs.filter (fun f => charCount f '/' == n) = [] then acc n
         else
           match acc n with
           | none => some (fs.filter (fun f => charCount f '/' == n))
           | some xs => some (xs ++ fs.filter (fun f => charCount f '/' == n)))
  | [], acc => by simp
  | f0 :: fs, acc => by
    rw [List.foldl_cons, foldersByLength_go n fs]
    cases hc : charCount f0 '/' == n with
    | true =>
      have hceq : charCount f0 '/' = n := by simpa using hc
      have hstep : foldersByLengthStep acc f0 n =
          match acc n with
          | none => some [f0]
          | some xs => some (xs ++ [f0]) := by
        unfold foldersByLengthStep
        rw [hceq]
        cases acc n <;> simp
      rw [List.filter_cons_of_pos (by simpa using hc)]
      cases hacc : acc n with
      | none =>
        rw [hstep, hacc]
        by_cases hf : fs.filter (fun f => charCount f '/' == n) = [] <;>
          simp [hf]
      | some xs =>
        rw [hstep, hacc]
        by_cases hf : fs.filter (fun f => charCount f '/' == n) = [] <;>
          simp [hf, List.append_assoc]
    | false =>
      have hcne : charCount f0 '/' ≠ n := by
        intro e
        rw [e] at hc
        simp at hc
      have hne : ¬ n = charCount f0 '/' := fun e => hcne e.symm
      have hstep : foldersByLengthStep acc f0 n = acc n := by
        unfold foldersByLengthStep
        cases acc (charCount f0 '/') <;> simp [hne]
      rw [List.filter_cons_of_neg (by simp [hc]), hstep]

theorem foldersByLength_eq (fs : List String) (n : Nat) :
    foldersByLength fs n =
      (if fs.filter (fun f => charCount f '/' == n) = [] then none
       else some (fs.filter (fun f => charCount f '/' == n))) := by
  unfold foldersByLength
  rw [foldersByLength_go n]

theorem charCount_of_mem_foldersByLength {fs : List String} {n : Nat} {xs : List String}
    (h : foldersByLength fs n = some xs) : ∀ x ∈ xs, charCount x '/' = n ∧ x ∈ fs := by
  rw [foldersByLength_eq] at h
  by_cases hf : fs.filter (fun f => charCount f '/' == n) = []
  · rw [if_pos hf] at h
    exact absurd h (by simp)
  · rw [if_neg hf] at h
    intro x hx
    have hx' : x ∈ fs.filter (fun f => charCount f '/' == n) := by
      rw [Option.some_inj.mp h]
      exact hx
    have := List.mem_filter.mp hx'
    exact ⟨by simpa using this.2, this.1⟩

/-! ## Trie shape lemmas -/

theorem BFolder.eta : ∀ f : BFolder,
    f = .mk (BFolder.pathOf f) (BFolder.nameOf f) (BFolder.filesOf f) (BFolder.foldersOf f)
  | .mk _ _ _ _ => rfl

theorem insertGo_pathOf (f : BFolder) (acc parts : List String) (fp : String) :
    BFolder.pathOf (insertGo f acc parts fp) = BFolder.pathOf f := by
  cases f with
  | mk p n fs fld =>
    cases parts with
    | nil => rfl
    | cons part rest =>
      cases rest with
      | nil => rfl
      | cons r rs => rfl

theorem insertGo_nameOf (f : BFolder) (acc parts : List String) (fp : String) :
    BFolder.nameOf (insertGo f acc parts fp) = BFolder.nameOf f := by
  cases f with
  | mk p n fs fld =>
    cases parts with
    | nil => rfl
    | cons part rest =>
      cases rest with
      | nil => rfl
      | cons r rs => rfl

theorem insertGo_indep (acc parts : List String) (fp p n p' n' : String)
    (fs : List BFile) (fld : BFolders) :
    BFolder.filesOf (insertGo (.mk p n fs fld) acc parts fp) =
        BFolder.filesOf (insertGo (.mk p' n' fs fld) acc parts fp) ∧
      BFolder.foldersOf (insertGo (.mk p n fs fld) acc parts fp) =
        BFolder.foldersOf (insertGo (.mk p' n' fs fld) acc parts fp) := by
  cases parts with
  | nil => exact ⟨rfl, rfl⟩
  | cons part rest =>
    cases rest with
    | nil => exact ⟨rfl, rfl⟩
    | cons r rs => exact ⟨rfl, rfl⟩

theorem insertOne_indep (fp p n p' n' : String) (fs : List BFile) (fld : BFolders) :
    BFolder.filesOf (insertOne (.mk p n fs fld) fp) =
        BFolder.filesOf (insertOne (.mk p' n' fs fld) fp) ∧
      BFolder.foldersOf (insertOne (.mk p n fs fld) fp) =
        BFolder.foldersOf (insertOne (.mk p' n' fs fld) fp) :=
  insertGo_indep [] (jsSplit fp '/') fp p n p' n' fs fld

theorem foldl_insertOne_indep :
    ∀ (fps : List String) (p n p' n' : String) (fs : List BFile) (fld : BFolders),
      BFolder.filesOf (List.foldl insertOne (.mk p n fs fld) fps) =
          BFolder.filesOf (List.foldl insertOne (.mk p' n' fs fld) fps) ∧
        BFolder.foldersOf (List.foldl insertOne (.mk p n fs fld) fps) =
          BFolder.foldersOf (List.foldl insertOne (.mk p' n' fs fld) fps)
  | [], p, n, p', n', fs, fld => ⟨rfl, rfl⟩
  | fp :: rest, p, n, p', n', fs, fld => by
    rw [List.foldl_cons, List.foldl_cons]
    have h := insertOne_indep fp p n p' n' fs fld
    cases hA : insertOne (BFolder.mk p n fs fld) fp with
    | mk pa na fsa flda =>
      cases hB : insertOne (BFolder.mk p' n' fs fld) fp with
      | mk pb nb fsb fldb =>
        rw [hA, hB] at h
        simp only [BFolder.filesOf, BFolder.foldersOf] at h
        rw [h.1, h.2]
        exact foldl_insertOne_indep rest pa na pb nb fsb fldb

theorem foldl_insertOne_nameOf : ∀ (fps : List String) (f : BFolder),
    BFolder.nameOf (List.foldl insertOne f fps) = BFolder.nameOf f
  | [], _ => rfl
  | fp :: rest, f => by
    rw [List.foldl_cons, foldl_insertOne_nameOf rest, insertOne,
      insertGo_nameOf]

theorem convertTree_nameOf (f : BFolder) :
    TreeFS.nameOf (convertTree f) = BFolder.nameOf f := by
  cases f
  rfl

theorem convertTree_childrenOf (p n : String) (fs : List BFile) (fld : BFolders) :
    TreeFS.childrenOf (convertTree (.mk p n fs fld)) =
      TreeFSs.append (convertFolders fld)
        (TreeFSs.ofList (fs.map (fun f => TreeFS.file f.path f.name))) := by
  rfl

/-! ## C9 and C5 (amended): the root directory only affects the root node -/

/-- C9: for any input paths and any two root directories, the two
`buildTree` results have identical children lists — the `rootDirectory`
argument only influences the root's own `id` and `name`. -/
theorem c9_children_root_independent (filePaths : List String) (r1 r2 : String) :
    TreeFS.childrenOf (buildTree filePaths r1) = TreeFS.childrenOf (buildTree filePaths r2) := by
  unfold buildTree buildRoot
  have h := foldl_insertOne_indep filePaths r1 (rootNameFor r1) r2 (rootNameFor r2)
    [] BFolders.nil
  cases hA : List.foldl insertOne (BFolder.mk r1 (rootNameFor r1) [] BFolders.nil) filePaths with
  | mk pa na fsa flda =>
    cases hB : List.foldl insertOne (BFolder.mk r2 (rootNameFor r2) [] BFolders.nil) filePaths with
    | mk pb nb fsb fldb =>
      rw [hA, hB] at h
      simp only [BFolder.filesOf, BFolder.foldersOf] at h
      rw [convertTree_childrenOf, convertTree_childrenOf, h.1, h.2]

/-- C5 (amended): the root `TreeFolder`'s name is the *last* split segment
of `rootDirectory` when that is non-empty; otherwise, when the split has
more than one segment, it is the second-to-last segment (which may itself
be empty — the code does not search for the last non-empty segment);
otherwise it is the literal `"/"`. -/
theorem c5_amended (filePaths : List String) (rootDirectory : String) :
    TreeFS.nameOf (buildTree filePaths rootDirectory) =
      (if (jsSplit rootDirectory '/').getLastD ("") ≠ ("") then
        (jsSplit rootDirectory '/').getLastD ("")
       else if (jsSplit rootDirectory '/').length > 1 then
        (jsSplit rootDirectory '/').getD ((jsSplit rootDirectory '/').length - 2) ("")
       else ("/")) := by
  unfold buildTree buildRoot
  rw [convertTree_nameOf, foldl_insertOne_nameOf]
  simp only [BFolder.nameOf, rootNameFor]
  by_cases h1 : (jsSplit rootDirectory '/').getLastD ("") ≠ ("")
  · rw [if_pos h1, if_pos h1]
    rfl
  · rw [if_neg h1, if_neg h1]
    by_cases h2 : (jsSplit rootDirectory '/').length > 1
    · rw [if_pos h2, if_pos h2]
      rfl
    · rw [if_neg h2, if_neg h2]
      rfl

/-! ## C10: the empty-string input path -/

theorem insertGo_filesOf (f : BFolder) (acc parts : List String) (fp : String) :
    BFolder.filesOf (insertGo f acc parts fp) = BFolder.filesOf f ∨
      ∃ x, BFolder.filesOf (insertGo f acc parts fp) = BFolder.filesOf f ++ [x] := by
  cases f with
  | mk p n fs fld =>
    cases parts with
    | nil => exact Or.inl rfl
    | cons part rest =>
      cases rest with
      | nil => exact Or.inr ⟨⟨fp, part⟩, rfl⟩
      | cons r rs => exact Or.inl rfl

theorem foldl_insertOne_files_mem :
    ∀ (fps : List String) (f : BFolder) (x : BFile), x ∈ BFolder.filesOf f →
      x ∈ BFolder.filesOf (List.foldl insertOne f fps)
  | [], _, _, hx => hx
  | fp :: rest, f, x, hx => by
    rw [List.foldl_cons]
    refine foldl_insertOne_files_mem rest _ x ?_
    rcases insertGo_filesOf f [] (jsSplit fp '/') fp with h | ⟨y, h⟩
    · rw [insertOne, h]
      exact hx
    · rw [insertOne, h]
      exact List.mem_append_left _ hx

theorem insertOne_empty_string (f : BFolder) :
    BFolder.filesOf (insertOne f ("")) = BFolder.filesOf f ++ [⟨(""), ("")⟩] := by
  cases f
  rfl

theorem toList_append : ∀ (a b : TreeFSs), (TreeFSs.append a b).toList = a.toList ++ b.toList
  | .nil, _ => rfl
  | .cons h t, b => by
    simp [TreeFSs.append, TreeFSs.toList, toList_append t b]

theorem toList_ofList (l : List TreeFS) : (TreeFSs.ofList l).toList = l := by
  induction l with
  | nil => rfl
  | cons h t ih => simp [TreeFSs.ofList, TreeFSs.toList, ih]

/-- C10: `buildTree` does not fail on an empty-string input path: `''`
splits into the single empty segment, which is treated as a file name, so
the root `TreeFolder` gains a child `TreeFile` with `id` and `name` both
the empty string. -/
theorem c10_empty_string_path (l1 l2 : List String) (rootDirectory : String) :
    TreeFS.file ("") ("") ∈
      (TreeFS.childrenOf (buildTree (l1 ++ [("")] ++ l2) rootDirectory)).toList := by
  unfold buildTree buildRoot
  rw [List.foldl_append, List.foldl_append, List.foldl_cons, List.foldl_nil]
  have hx : (⟨(""), ("")⟩ : BFile) ∈
      BFolder.filesOf (insertOne (List.foldl insertOne
        (BFolder.mk rootDirectory (rootNameFor rootDirectory) [] BFolders.nil) l1) ("")) := by
    rw [insertOne_empty_string]
    exact List.mem_append_right _ (List.mem_singleton.mpr rfl)
  have hmem := foldl_insertOne_files_mem l2 _ _ hx
  cases hfin : List.foldl insertOne (insertOne (List.foldl insertOne
      (BFolder.mk rootDirectory (rootNameFor rootDirectory) [] BFolders.nil) l1) ("")) l2 with
  | mk p n fs fld =>
    rw [hfin] at hmem
    simp only [BFolder.filesOf] at hmem
    rw [convertTree_childrenOf, toList_append, toList_ofList]
    refine List.mem_append_right _ ?_
    exact List.mem_map.mpr ⟨⟨(""), ("")⟩, hmem, rfl⟩

/-! ## C1 (amended): buildTree leaves are exactly the input paths -/

open scoped List

theorem leafIdsList_append : ∀ a b : TreeFSs,
    leafIdsList (TreeFSs.append a b) = leafIdsList a ++ leafIdsList b
  | .nil, _ => rfl
  | .cons h t, b => by
    simp [TreeFSs.append, leafIdsList, leafIdsList_append t b]

theorem leafIds_ofList_files (files : List BFile) :
    leafIdsList (TreeFSs.ofList (files.map (fun f => TreeFS.file f.path f.name))) =
      files.map (fun f => f.path) := by
  induction files with
  | nil => rfl
  | cons f t ih => simp [TreeFSs.ofList, leafIdsList, leafIds, ih]

mutual
theorem leafIds_convertTree : ∀ f : BFolder, leafIds (convertTree f) = trieFiles f
  | .mk p n files folders => by
    simp only [convertTree, leafIds, trieFiles]
    rw [leafIdsList_append, leafIds_convertFolders folders, leafIds_ofList_files files]
theorem leafIds_convertFolders : ∀ fs : BFolders,
    leafIdsList (convertFolders fs) = trieOfFolders fs
  | .nil => rfl
  | .cons k f t => by
    simp only [convertFolders, leafIdsList, trieOfFolders]
    rw [leafIds_convertTree f, leafIds_convertFolders t]
end

theorem trieOfFolders_set_found : ∀ (fld : BFolders) (k : String) (v sub : BFolder) (fp : String),
    lookupFolders fld k = some sub → trieFiles v ~ fp :: trieFiles sub →
    trieOfFolders (setFolder fld k v) ~ fp :: trieOfFolders fld
  | .nil, k, v, sub, fp, hlk, _ => by
    simp [lookupFolders] at hlk
  | .cons k0 f0 t, k, v, sub, fp, hlk, hperm => by
    by_cases h : k0 = k
    · subst h
      rw [lookupFolders, if_pos rfl] at hlk
      obtain rfl : f0 = sub := Option.some_inj.mp hlk
      rw [setFolder, if_pos rfl]
      show trieFiles v ++ trieOfFolders t ~ fp :: (trieFiles f0 ++ trieOfFolders t)
      calc trieFiles v ++ trieOfFolders t
          ~ (fp :: trieFiles f0) ++ trieOfFolders t := hperm.append_right _
        _ = fp :: (trieFiles f0 ++ trieOfFolders t) := rfl
    · rw [lookupFolders, if_neg h] at hlk
      rw [setFolder, if_neg h]
      show trieFiles f0 ++ trieOfFolders (setFolder t k v) ~
        fp :: (trieFiles f0 ++ trieOfFolders t)
      calc trieFiles f0 ++ trieOfFolders (setFolder t k v)
          ~ trieFiles f0 ++ (fp :: trieOfFolders t) :=
            (trieOfFolders_set_found t k v sub fp hlk hperm).append_left _
        _ ~ fp :: (trieFiles f0 ++ trieOfFolders t) := List.perm_middle

theorem trieOfFolders_set_notfound : ∀ (fld : BFolders) (k : String) (v : BFolder),
    lookupFolders fld k = none →
    trieOfFolders (setFolder fld k v) = trieOfFolders fld ++ trieFiles v
  | .nil, k, v, _ => by
    simp [setFolder, trieOfFolders]
  | .cons k0 f0 t, k, v, hlk => by
    rw [lookupFolders] at hlk
    by_cases h : k0 = k
    · rw [if_pos h] at hlk
      exact absurd hlk (by simp)
    · rw [if_neg h] at hlk
      rw [setFolder, if_neg h]
      show trieFiles f0 ++ trieOfFolders (setFolder t k v) =
        (trieFiles f0 ++ trieOfFolders t) ++ trieFiles v
      rw [trieOfFolders_set_notfound t k v hlk, List.append_assoc]

theorem trieFiles_insertGo : ∀ (parts : List String) (f : BFolder) (acc : List String)
    (fp : String), parts ≠ [] → trieFiles (insertGo f acc parts fp) ~ fp :: trieFiles f
  | [], _, _, _, h => absurd rfl h
  | [part], .mk p n fs fld, _, fp, _ => by
    show trieFiles (.mk p n (fs ++ [⟨fp, part⟩]) fld) ~ fp :: trieFiles (.mk p n fs fld)
    simp only [trieFiles, List.map_append, List.map_cons, List.map_nil]
    calc trieOfFolders fld ++ (fs.map (fun f => f.path) ++ [fp])
        = (trieOfFolders fld ++ fs.map (fun f => f.path)) ++ [fp] := by
          rw [List.append_assoc]
      _ ~ fp :: (trieOfFolders fld ++ fs.map (fun f => f.path)) :=
          List.perm_append_singleton _ _
  | part :: r :: rs, .mk p n fs fld, acc, fp, _ => by
    cases hlk : lookupFolders fld part with
    | some s =>
      have heq : insertGo (BFolder.mk p n fs fld) acc (part :: r :: rs) fp =
          BFolder.mk p n fs (setFolder fld part (insertGo s (acc ++ [part]) (r :: rs) fp)) := by
        rw [insertGo, hlk]
        exact List.cons_ne_nil r rs
      rw [heq]
      have hperm := trieFiles_insertGo (r :: rs) s (acc ++ [part]) fp (List.cons_ne_nil r rs)
      have hset := trieOfFolders_set_found fld part _ s fp hlk hperm
      show trieOfFolders (setFolder fld part (insertGo s (acc ++ [part]) (r :: rs) fp)) ++
          fs.map (fun f => f.path) ~ fp :: (trieOfFolders fld ++ fs.map (fun f => f.path))
      calc trieOfFolders (setFolder fld part (insertGo s (acc ++ [part]) (r :: rs) fp)) ++
            fs.map (fun f => f.path)
          ~ (fp :: trieOfFolders fld) ++ fs.map (fun f => f.path) := hset.append_right _
        _ = fp :: (trieOfFolders fld ++ fs.map (fun f => f.path)) := rfl
    | none =>
      have heq : insertGo (BFolder.mk p n fs fld) acc (part :: r :: rs) fp =
          BFolder.mk p n fs (setFolder fld part
            (insertGo (.mk (joinSlash (acc ++ [part])) part [] .nil)
              (acc ++ [part]) (r :: rs) fp)) := by
        rw [insertGo, hlk]
        exact List.cons_ne_nil r rs
      rw [heq]
      have hperm := trieFiles_insertGo (r :: rs)
        (.mk (joinSlash (acc ++ [part])) part [] .nil) (acc ++ [part]) fp (List.cons_ne_nil r rs)
      have hset := trieOfFolders_set_notfound fld part
        (insertGo (.mk (joinSlash (acc ++ [part])) part [] .nil) (acc ++ [part]) (r :: rs) fp)
        hlk
      show trieOfFolders (setFolder fld part _) ++ fs.map (fun f => f.path) ~
        fp :: (trieOfFolders fld ++ fs.map (fun f => f.path))
      rw [hset]
      have h1 : trieFiles (insertGo (.mk (joinSlash (acc ++ [part])) part [] .nil)
          (acc ++ [part]) (r :: rs) fp) ~ [fp] := by
        simpa [trieFiles, trieOfFolders] using hperm
      calc (trieOfFolders fld ++ trieFiles (insertGo
              (.mk (joinSlash (acc ++ [part])) part [] .nil) (acc ++ [part]) (r :: rs) fp)) ++
            fs.map (fun f => f.path)
          ~ (trieOfFolders fld ++ [fp]) ++ fs.map (fun f => f.path) :=
            (h1.append_left _).append_right _
        _ = trieOfFolders fld ++ fp :: fs.map (fun f => f.path) := by
            rw [List.append_assoc]
            rfl
        _ ~ fp :: (trieOfFolders fld ++ fs.map (fun f => f.path)) := List.perm_middle

theorem trieFiles_foldl : ∀ (fps : List String) (f : BFolder),
    trieFiles (List.foldl insertOne f fps) ~ trieFiles f ++ fps
  | [], f => by simp
  | fp :: rest, f => by
    rw [List.foldl_cons]
    have h2 : trieFiles (insertOne f fp) ~ fp :: trieFiles f :=
      trieFiles_insertGo (jsSplit fp '/') f [] fp (jsSplit_ne_nil fp '/')
    calc trieFiles (List.foldl insertOne (insertOne f fp) rest)
        ~ trieFiles (insertOne f fp) ++ rest := trieFiles_foldl rest (insertOne f fp)
      _ ~ (fp :: trieFiles f) ++ rest := h2.append_right _
      _ = fp :: (trieFiles f ++ rest) := rfl
      _ ~ trieFiles f ++ (fp :: rest) := List.perm_middle.symm

/-- C1 (amended): for `buildTree`, the multiset of `TreeFile` leaf `id`s is
exactly the multiset of input paths — every input path occurrence appears
in exactly one leaf with `id` equal to the original string, and no leaf is
invented.  (For `makeFileHierarchy` the original claim fails, see the
counterexample: root-level files and extension-less paths yield no leaf.) -/
theorem c1_amended (filePaths : List String) (rootDirectory : String) :
    (leafIds (buildTree filePaths rootDirectory)).Perm filePaths := by
  unfold buildTree buildRoot
  rw [leafIds_convertTree]
  have h := trieFiles_foldl filePaths
    (BFolder.mk rootDirectory (rootNameFor rootDirectory) [] BFolders.nil)
  simpa [trieFiles, trieOfFolders] using h

/-! ## C2 (amended): sibling folders in a buildTree output have distinct names -/

theorem hasKeyB_setFolder : ∀ (fld : BFolders) (k : String) (v : BFolder) (k' : String),
    hasKeyB (setFolder fld k v) k' = (hasKeyB fld k' || (k == k'))
  | .nil, k, v, k' => by
    simp [setFolder, hasKeyB]
  | .cons k0 f0 t, k, v, k' => by
    by_cases h : k0 = k
    · subst h
      rw [setFolder, if_pos rfl]
      show (k0 == k' || hasKeyB t k') = ((k0 == k' || hasKeyB t k') || (k0 == k'))
      cases hb : k0 == k' <;> simp [hb]
    · rw [setFolder, if_neg h]
      show (k0 == k' || hasKeyB (setFolder t k v) k') =
        ((k0 == k' || hasKeyB t k') || (k == k'))
      rw [hasKeyB_setFolder t k v k', Bool.or_assoc]

theorem keyNodupB_setFolder : ∀ (fld : BFolders) (k : String) (v : BFolder),
    keyNodupB fld = true → keyNodupB (setFolder fld k v) = true
  | .nil, k, v, _ => by simp [setFolder, keyNodupB, hasKeyB]
  | .cons k0 f0 t, k, v, h => by
    simp only [keyNodupB, Bool.and_eq_true, Bool.not_eq_true'] at h
    by_cases hk : k0 = k
    · subst hk
      rw [setFolder, if_pos rfl]
      simp only [keyNodupB, Bool.and_eq_true, Bool.not_eq_true']
      exact ⟨h.1, h.2⟩
    · rw [setFolder, if_neg hk]
      simp only [keyNodupB, Bool.and_eq_true, Bool.not_eq_true']
      refine ⟨?_, keyNodupB_setFolder t k v h.2⟩
      rw [hasKeyB_setFolder t k v k0, h.1]
      have hke : (k == k0) = false := beq_eq_false_iff_ne.mpr (fun e => hk e.symm)
      simp [hke]

theorem lookupFolders_good : ∀ (fld : BFolders) (part : String) (sub : BFolder),
    goodFoldersB fld = true → lookupFolders fld part = some sub →
    (BFolder.nameOf sub == part) = true ∧ goodB sub = true
  | .nil, part, sub, _, hlk => by simp [lookupFolders] at hlk
  | .cons k0 f0 t, part, sub, hg, hlk => by
    simp only [goodFoldersB, Bool.and_eq_true] at hg
    rw [lookupFolders] at hlk
    by_cases h : k0 = part
    · rw [if_pos h] at hlk
      obtain rfl : f0 = sub := Option.some_inj.mp hlk
      subst h
      exact ⟨hg.1.1, hg.1.2⟩
    · rw [if_neg h] at hlk
      exact lookupFolders_good t part sub hg.2 hlk

theorem setFolder_goodFolders : ∀ (fld : BFolders) (part : String) (v : BFolder),
    goodFoldersB fld = true → (BFolder.nameOf v == part) = true → goodB v = true →
    goodFoldersB (setFolder fld part v) = true
  | .nil, part, v, _, hn, hv => by
    simp only [setFolder, goodFoldersB, Bool.and_eq_true]
    exact ⟨⟨hn, hv⟩, trivial⟩
  | .cons k0 f0 t, part, v, hg, hn, hv => by
    simp only [goodFoldersB, Bool.and_eq_true] at hg
    by_cases h : k0 = part
    · subst h
      rw [setFolder, if_pos rfl]
      simp only [goodFoldersB, Bool.and_eq_true]
      exact ⟨⟨hn, hv⟩, hg.2⟩
    · rw [setFolder, if_neg h]
      simp only [goodFoldersB, Bool.and_eq_true]
      exact ⟨hg.1, setFolder_goodFolders t part v hg.2 hn hv⟩

theorem insertGo_good : ∀ (parts : List String) (f : BFolder) (acc : List String) (fp : String),
    goodB f = true → goodB (insertGo f acc parts fp) = true
  | [], .mk _ _ _ _, _, _, h => h
  | [part], .mk p n fs fld, _, _, h => h
  | part :: r :: rs, .mk p n fs fld, acc, fp, h => by
    simp only [goodB, Bool.and_eq_true] at h
    cases hlk : lookupFolders fld part with
    | some s =>
      have heq : insertGo (BFolder.mk p n fs fld) acc (part :: r :: rs) fp =
          BFolder.mk p n fs (setFolder fld part (insertGo s (acc ++ [part]) (r :: rs) fp)) := by
        rw [insertGo, hlk]
        exact List.cons_ne_nil r rs
      rw [heq]
      have hsub := lookupFolders_good fld part s h.2 hlk
      have hname : (BFolder.nameOf (insertGo s (acc ++ [part]) (r :: rs) fp) == part) = true := by
        rw [insertGo_nameOf]
        exact hsub.1
      have hgood := insertGo_good (r :: rs) s (acc ++ [part]) fp hsub.2
      simp only [goodB, Bool.and_eq_true]
      exact ⟨keyNodupB_setFolder fld part _ h.1,
        setFolder_goodFolders fld part _ h.2 hname hgood⟩
    | none =>
      have heq : insertGo (BFolder.mk p n fs fld) acc (part :: r :: rs) fp =
          BFolder.mk p n fs (setFolder fld part
            (insertGo (.mk (joinSlash (acc ++ [part])) part [] .nil)
              (acc ++ [part]) (r :: rs) fp)) := by
        rw [insertGo, hlk]
        exact List.cons_ne_nil r rs
      rw [heq]
      have hname : (BFolder.nameOf (insertGo (.mk (joinSlash (acc ++ [part])) part [] .nil)
          (acc ++ [part]) (r :: rs) fp) == part) = true := by
        rw [insertGo_nameOf]
        simp [BFolder.nameOf]
      have hgood := insertGo_good (r :: rs)
        (.mk (joinSlash (acc ++ [part])) part [] .nil) (acc ++ [part]) fp rfl
      simp only [goodB, Bool.and_eq_true]
      exact ⟨keyNodupB_setFolder fld part _ h.1,
        setFolder_goodFolders fld part _ h.2 hname hgood⟩

theorem foldl_insertOne_good : ∀ (fps : List String) (f : BFolder),
    goodB f = true → goodB (List.foldl insertOne f fps) = true
  | [], _, h => h
  | fp :: rest, f, h => by
    rw [List.foldl_cons]
    exact foldl_insertOne_good rest _ (insertGo_good (jsSplit fp '/') f [] fp h)

theorem keysOfB_contains : ∀ (t : BFolders) (k : String),
    (keysOfB t).contains k = hasKeyB t k
  | .nil, _ => rfl
  | .cons k0 f0 t, k => by
    show ((k == k0) || (keysOfB t).contains k) = ((k0 == k) || hasKeyB t k)
    rw [keysOfB_contains t k]
    by_cases h : k = k0
    · subst h
      rfl
    · have h1 : (k == k0) = false := by simp [h]
      have h2 : (k0 == k) = false := by simp [Ne.symm h]
      rw [h1, h2]

theorem nodupB_keysOfB : ∀ (t : BFolders), nodupB (keysOfB t) = keyNodupB t
  | .nil => rfl
  | .cons k0 f0 t => by
    show (!((keysOfB t).contains k0) && nodupB (keysOfB t)) = (!(hasKeyB t k0) && keyNodupB t)
    rw [keysOfB_contains t k0, nodupB_keysOfB t]

theorem folderChildNames_append : ∀ a b : TreeFSs,
    folderChildNames (TreeFSs.append a b) = folderChildNames a ++ folderChildNames b
  | .nil, _ => rfl
  | .cons (.folder i n cs) t, b => by
    simp [TreeFSs.append, folderChildNames, folderChildNames_append t b]
  | .cons (.file i n) t, b => by
    simp [TreeFSs.append, folderChildNames, folderChildNames_append t b]

theorem folderChildNames_ofList_files (files : List BFile) :
    folderChildNames (TreeFSs.ofList (files.map (fun f => TreeFS.file f.path f.name))) = [] := by
  induction files with
  | nil => rfl
  | cons f t ih => simpa [TreeFSs.ofList, folderChildNames] using ih

theorem folderChildNames_convertFolders : ∀ fs : BFolders, goodFoldersB fs = true →
    folderChildNames (convertFolders fs) = keysOfB fs
  | .nil, _ => rfl
  | .cons k f t, hg => by
    simp only [goodFoldersB, Bool.and_eq_true] at hg
    cases f with
    | mk p n files folders =>
      have hn : n = k := by
        have := hg.1.1
        simp only [BFolder.nameOf] at this
        exact eq_of_beq this
      show folderChildNames (.cons (convertTree (.mk p n files folders)) (convertFolders t)) =
        k :: keysOfB t
      rw [convertTree]
      show n :: folderChildNames (convertFolders t) = k :: keysOfB t
      rw [hn, folderChildNames_convertFolders t hg.2]

theorem folderSiblingsDistinctList_append : ∀ a b : TreeFSs,
    folderSiblingsDistinctList (TreeFSs.append a b) =
      (folderSiblingsDistinctList a && folderSiblingsDistinctList b)
  | .nil, _ => by simp [TreeFSs.append, folderSiblingsDistinctList]
  | .cons h t, b => by
    simp [TreeFSs.append, folderSiblingsDistinctList,
      folderSiblingsDistinctList_append t b, Bool.and_assoc]

theorem folderSiblingsDistinctList_ofList_files (files : List BFile) :
    folderSiblingsDistinctList
      (TreeFSs.ofList (files.map (fun f => TreeFS.file f.path f.name))) = true := by
  induction files with
  | nil => rfl
  | cons f t ih =>
    simpa [TreeFSs.ofList, folderSiblingsDistinctList, folderSiblingsDistinctB] using ih

mutual
theorem convertTree_folderSiblings : ∀ f : BFolder, goodB f = true →
    folderSiblingsDistinctB (convertTree f) = true
  | .mk p n files folders => fun hg => by
    simp only [goodB, Bool.and_eq_true] at hg
    rw [convertTree]
    show (nodupB (folderChildNames (TreeFSs.append (convertFolders folders)
        (TreeFSs.ofList (files.map (fun f => TreeFS.file f.path f.name))))) &&
      folderSiblingsDistinctList (TreeFSs.append (convertFolders folders)
        (TreeFSs.ofList (files.map (fun f => TreeFS.file f.path f.name))))) = true
    rw [folderChildNames_append, folderChildNames_convertFolders folders hg.2,
      folderChildNames_ofList_files, List.append_nil, nodupB_keysOfB, hg.1,
      folderSiblingsDistinctList_append, convertFolders_folderSiblings folders hg.2,
      folderSiblingsDistinctList_ofList_files]
    rfl
theorem convertFolders_folderSiblings : ∀ fs : BFolders, goodFoldersB fs = true →
    folderSiblingsDistinctList (convertFolders fs) = true
  | .nil => fun _ => rfl
  | .cons k f t => fun hg => by
    simp only [goodFoldersB, Bool.and_eq_true] at hg
    show (folderSiblingsDistinctB (convertTree f) && folderSiblingsDistinctList (convertFolders t)) = true
    rw [convertTree_folderSiblings f hg.1.2, convertFolders_folderSiblings t hg.2]
    rfl
end

/-- C2 (amended): in every tree produced by `buildTree`, no two sibling
*folder* nodes share a `name` (the sub-folder record is keyed by segment
name).  The original claim fails for files: a `TreeFile` can share its
name with a sibling `TreeFolder` (or with a duplicate sibling file), and
in `makeFileHierarchy` even sibling folders can collide via the
string-prefix filter — see the counterexample. -/
theorem c2_amended (filePaths : List String) (rootDirectory : String) :
    folderSiblingsDistinctB (buildTree filePaths rootDirectory) = true := by
  unfold buildTree buildRoot
  exact convertTree_folderSiblings _ (foldl_insertOne_good filePaths _ rfl)

/-! ## C7: duplicate paths are appended, not deduplicated -/

theorem lookupVal_appendAt : ∀ (m : List (String × List String)) (k v k' : String),
    lookupVal (appendAt m k v) k' =
      if k' = k then some ((lookupVal m k).getD [] ++ [v]) else lookupVal m k'
  | [], k, v, k' => by
    have hL : lookupVal (appendAt [] k v) k' = if k = k' then some [v] else none := rfl
    rw [hL]
    by_cases h : k' = k
    · subst h
      rw [if_pos rfl, if_pos rfl]
      rfl
    · rw [if_neg (fun e => h e.symm), if_neg h]
      rfl
  | (k0, vs) :: t, k, v, k' => by
    rw [appendAt]
    by_cases h : k0 = k
    · rw [if_pos h]
      subst h
      have hL : lookupVal ((k0, vs ++ [v]) :: t) k' =
          if k0 = k' then some (vs ++ [v]) else lookupVal t k' := rfl
      have hR1 : lookupVal ((k0, vs) :: t) k0 = some vs := by
        have e : lookupVal ((k0, vs) :: t) k0 =
            if k0 = k0 then some vs else lookupVal t k0 := rfl
        rw [e, if_pos rfl]
      have hR2 : lookupVal ((k0, vs) :: t) k' =
          if k0 = k' then some vs else lookupVal t k' := rfl
      rw [hL, hR1, hR2]
      by_cases h' : k0 = k'
      · subst h'
        simp
      · rw [if_neg h', if_neg (fun e => h' e.symm), if_neg h']
    · rw [if_neg h]
      have hL : lookupVal ((k0, vs) :: appendAt t k v) k' =
          if k0 = k' then some vs else lookupVal (appendAt t k v) k' := rfl
      have hR2 : lookupVal ((k0, vs) :: t) k' =
          if k0 = k' then some vs else lookupVal t k' := rfl
      have hRk : lookupVal ((k0, vs) :: t) k = lookupVal t k := by
        have e : lookupVal ((k0, vs) :: t) k =
            if k0 = k then some vs else lookupVal t k := rfl
        rw [e, if_neg h]
      rw [hL, hR2, hRk, lookupVal_appendAt t k v k']
      by_cases h' : k0 = k'
      · subst h'
        simp [h]
      · rw [if_neg h', if_neg h']

theorem lookupFolders_setFolder_self : ∀ (fld : BFolders) (k : String) (v : BFolder),
    lookupFolders (setFolder fld k v) k = some v
  | .nil, k, v => by
    rw [setFolder, lookupFolders, if_pos rfl]
  | .cons k0 f0 t, k, v => by
    by_cases h : k0 = k
    · rw [setFolder, if_pos h, lookupFolders, if_pos h]
    · rw [setFolder, if_neg h, lookupFolders, if_neg h,
        lookupFolders_setFolder_self t k v]

theorem filesAtParts_insertGo :
    ∀ (dp : List String) (f : BFolder) (fname : String) (acc : List String) (fp : String),
      filesAtParts (insertGo f acc (dp ++ [fname]) fp) dp =
        some ((filesAtParts f dp).getD [] ++ [⟨fp, fname⟩])
  | [], .mk p n fs fld, fname, acc, fp => rfl
  | [d], .mk p n fs fld, fname, acc, fp => by
    cases hlk : lookupFolders fld d with
    | some s =>
      cases s with
      | mk ps ns fss flds =>
        simp only [List.cons_append, List.nil_append, insertGo, hlk, filesAtParts,
          BFolder.foldersOf, BFolder.filesOf, lookupFolders_setFolder_self,
          Option.getD_some]
    | none =>
      simp only [List.cons_append, List.nil_append, insertGo, hlk, filesAtParts,
        BFolder.foldersOf, BFolder.filesOf, lookupFolders_setFolder_self,
        Option.getD_none, Option.getD_some]
  | d :: e :: rest, .mk p n fs fld, fname, acc, fp => by
    simp only [List.cons_append]
    cases hlk : lookupFolders fld d with
    | some s =>
      rw [show insertGo (BFolder.mk p n fs fld) acc (d :: e :: (rest ++ [fname])) fp =
          BFolder.mk p n fs (setFolder fld d
            (insertGo s (acc ++ [d]) (e :: (rest ++ [fname])) fp)) from by
        rw [insertGo, hlk]
        exact List.cons_ne_nil e (rest ++ [fname])]
      rw [show filesAtParts (BFolder.mk p n fs (setFolder fld d
            (insertGo s (acc ++ [d]) (e :: (rest ++ [fname])) fp))) (d :: e :: rest) =
          filesAtParts (insertGo s (acc ++ [d]) (e :: (rest ++ [fname])) fp) (e :: rest) from by
        simp only [filesAtParts, BFolder.foldersOf, lookupFolders_setFolder_self]]
      have hIH := filesAtParts_insertGo (e :: rest) s fname (acc ++ [d]) fp
      simp only [List.cons_append] at hIH
      rw [hIH]
      rw [show filesAtParts (BFolder.mk p n fs fld) (d :: e :: rest) =
          filesAtParts s (e :: rest) from by
        simp only [filesAtParts, BFolder.foldersOf, hlk]]
    | none =>
      rw [show insertGo (BFolder.mk p n fs fld) acc (d :: e :: (rest ++ [fname])) fp =
          BFolder.mk p n fs (setFolder fld d
            (insertGo (.mk (joinSlash (acc ++ [d])) d [] .nil) (acc ++ [d])
              (e :: (rest ++ [fname])) fp)) from by
        rw [insertGo, hlk]
        exact List.cons_ne_nil e (rest ++ [fname])]
      rw [show filesAtParts (BFolder.mk p n fs (setFolder fld d
            (insertGo (.mk (joinSlash (acc ++ [d])) d [] .nil) (acc ++ [d])
              (e :: (rest ++ [fname])) fp))) (d :: e :: rest) =
          filesAtParts (insertGo (.mk (joinSlash (acc ++ [d])) d [] .nil) (acc ++ [d])
            (e :: (rest ++ [fname])) fp) (e :: rest) from by
        simp only [filesAtParts, BFolder.foldersOf, lookupFolders_setFolder_self]]
      have hIH := filesAtParts_insertGo (e :: rest)
        (.mk (joinSlash (acc ++ [d])) d [] .nil) fname (acc ++ [d]) fp
      simp only [List.cons_append] at hIH
      rw [hIH]
      rw [show filesAtParts (BFolder.mk (joinSlash (acc ++ [d])) d [] BFolders.nil)
            (e :: rest) = none from by
        simp only [filesAtParts, BFolder.foldersOf, lookupFolders]]
      rw [show filesAtParts (BFolder.mk p n fs fld) (d :: e :: rest) = none from by
        simp only [filesAtParts, BFolder.foldersOf, hlk]]

theorem getAllFileNodesStep_file :
    ∀ (m : List (String × List String)) (dirParts : List String) (fname : String),
      dirParts ≠ [] →
      jsSplit (joinSlash (dirParts ++ [fname])) '/' = dirParts ++ [fname] →
      jsIncludes fname '.' = true →
      getAllFileNodesStep m (joinSlash (dirParts ++ [fname])) =
        appendAt m (joinSlash dirParts) fname := by
  intro m dirParts fname hne hsplit hdot
  cases dirParts with
  | nil => exact absurd rfl hne
  | cons d ds =>
    have hgt : decide (((d :: ds) ++ [fname]).length > 1) = true := by
      simp only [List.length_append, List.length_cons, List.length_nil, decide_eq_true_eq]
      omega
    have hroot : (((d :: ds) ++ [fname]).length == 1) = false := by
      rw [beq_eq_false_iff_ne]
      simp only [ne_eq, List.length_append, List.length_cons, List.length_nil]
      omega
    simp only [getAllFileNodesStep, hsplit, List.getLastD_concat, List.dropLast_concat,
      hdot, hgt, hroot]
    rfl

/-- C7: when the same file path occurs twice in the input, both strategies
register the file twice under the same folder: the `getAllFileNodes` entry
for the directory holds the file name twice, and in the `buildTree` trie
the folder reached by the directory segments holds two identical
`BuildingFile` entries — append without deduplication. -/
theorem c7_duplicate_paths (dirParts : List String) (fname : String)
    (hslash : ∀ s ∈ dirParts, s.data.contains '/' = false)
    (hf : fname.data.contains '/' = false)
    (hdot : jsIncludes fname '.' = true)
    (hne : dirParts ≠ []) :
    lookupVal (getAllFileNodes
        [joinSlash (dirParts ++ [fname]), joinSlash (dirParts ++ [fname])])
      (joinSlash dirParts) = some [fname, fname] ∧
    ∀ rootDirectory : String,
      filesAtParts (buildRoot
          [joinSlash (dirParts ++ [fname]), joinSlash (dirParts ++ [fname])] rootDirectory)
        dirParts =
      some [⟨joinSlash (dirParts ++ [fname]), fname⟩,
        ⟨joinSlash (dirParts ++ [fname]), fname⟩] := by
  have hsplit : jsSplit (joinSlash (dirParts ++ [fname])) '/' = dirParts ++ [fname] := by
    refine jsSplit_joinSlash (dirParts ++ [fname]) (by simp) ?_
    intro s hs
    rcases List.mem_append.mp hs with h | h
    · exact hslash s h
    · rw [List.mem_singleton.mp h]
      exact hf
  constructor
  · have e1 : getAllFileNodes
        [joinSlash (dirParts ++ [fname]), joinSlash (dirParts ++ [fname])] =
        getAllFileNodesStep (getAllFileNodesStep [(("/"), [])]
          (joinSlash (dirParts ++ [fname]))) (joinSlash (dirParts ++ [fname])) := rfl
    rw [e1, getAllFileNodesStep_file [(("/"), [])] dirParts fname hne hsplit hdot,
      getAllFileNodesStep_file (appendAt [(("/"), [])] (joinSlash dirParts) fname)
        dirParts fname hne hsplit hdot,
      lookupVal_appendAt, if_pos rfl, lookupVal_appendAt, if_pos rfl]
    have hbase : (lookupVal [(("/"), ([] : List String))] (joinSlash dirParts)).getD [] = [] := by
      have e : lookupVal [(("/"), ([] : List String))] (joinSlash dirParts) =
          if ("/") = joinSlash dirParts then some [] else none := rfl
      rw [e]
      by_cases h : ("/") = joinSlash dirParts
      · rw [if_pos h]
        rfl
      · rw [if_neg h]
        rfl
    rw [hbase]
    rfl
  · intro rootDirectory
    have e1 : buildRoot
        [joinSlash (dirParts ++ [fname]), joinSlash (dirParts ++ [fname])] rootDirectory =
        insertOne (insertOne
          (BFolder.mk rootDirectory (rootNameFor rootDirectory) [] BFolders.nil)
          (joinSlash (dirParts ++ [fname]))) (joinSlash (dirParts ++ [fname])) := rfl
    have e2 : ∀ f : BFolder, insertOne f (joinSlash (dirParts ++ [fname])) =
        insertGo f [] (dirParts ++ [fname]) (joinSlash (dirParts ++ [fname])) := by
      intro f
      rw [insertOne, hsplit]
    rw [e1, e2, e2, filesAtParts_insertGo dirParts _ fname [] _,
      filesAtParts_insertGo dirParts _ fname [] _]
    simp only [Option.getD_some]
    have hroot0 : (filesAtParts
        (BFolder.mk rootDirectory (rootNameFor rootDirectory) [] BFolders.nil)
        dirParts).getD [] = [] := by
      cases dirParts with
      | nil => rfl
      | cons d ds => rfl
    rw [hroot0]
    rfl

/-- C7 (witness): the duplicate-registration theorem instantiated at the
concrete path `a/b.js` occurring twice. -/
theorem c7_witness :
    lookupVal (getAllFileNodes [("a/b.js"), ("a/b.js")]) ("a") =
        some [("b.js"), ("b.js")] ∧
      filesAtParts (buildRoot [("a/b.js"), ("a/b.js")] ("root")) [("a")] =
        some [⟨("a/b.js"), ("b.js")⟩, ⟨("a/b.js"), ("b.js")⟩] := by
  have h := c7_duplicate_paths [("a")] ("b.js") (by decide) (by decide) (by decide)
    (by decide)
  have hj : joinSlash ([("a")] ++ [("b.js")]) = ("a/b.js") := by decide
  have hj2 : joinSlash [("a")] = ("a") := rfl
  refine ⟨?_, ?_⟩
  · have h1 := h.1
    rw [hj, hj2] at h1
    exact h1
  · have h2 := h.2 ("root")
    rw [hj] at h2
    exact h2

/-! ## C8: depth of a file equals the segment count of its directory part -/

theorem getLastD_mem {α : Type} : ∀ (l : List α) (d : α), l ≠ [] → l.getLastD d ∈ l
  | [], _, h => absurd rfl h
  | [x], d, _ => by simp [List.getLastD_cons]
  | x :: y :: t, d, _ => by
    rw [List.getLastD_cons]
    exact List.mem_cons_of_mem _ (getLastD_mem (y :: t) x (List.cons_ne_nil y t))

theorem contains_eq_false_of_not_mem {c : Char} {l : List Char} (h : c ∉ l) :
    l.contains c = false := by
  cases hc : l.contains c with
  | false => rfl
  | true =>
    exfalso
    apply h
    have helem : List.elem c l = true := by
      unfold List.contains at hc
      exact hc
    exact List.mem_of_elem_eq_true helem

theorem jsSplit_getLastD_noSlash (file : String) :
    ((jsSplit file '/').getLastD ("")).data.contains '/' = false := by
  have hmem := getLastD_mem (jsSplit file '/') ("") (jsSplit_ne_nil file '/')
  unfold jsSplit at hmem ⊢
  obtain ⟨chunk, hc, heq⟩ := List.mem_map.mp hmem
  rw [← heq]
  show chunk.contains '/' = false
  exact contains_eq_false_of_not_mem (mem_splitChars_not_sep '/' file.data chunk hc)

theorem noSlash_of_single_segment (file : String)
    (h : ((jsSplit file '/').length == 1) = true) : file.data.contains '/' = false := by
  have hlen : (jsSplit file '/').length = 1 := by simpa using h
  rw [jsSplit_length] at hlen
  have hcount : List.count '/' file.data = 0 := by
    have : charCount file '/' = 0 := by omega
    unfold charCount at this
    exact this
  exact contains_eq_false_of_not_mem (List.count_eq_zero.mp hcount)

theorem noSlashVals_appendAt (m : List (String × List String)) (k v : String)
    (hm : NoSlashVals m) (hv : v.data.contains '/' = false) :
    NoSlashVals (appendAt m k v) := by
  intro k' vs hvs w hw
  rw [lookupVal_appendAt] at hvs
  by_cases hk : k' = k
  · rw [if_pos hk] at hvs
    obtain rfl : ((lookupVal m k).getD [] ++ [v]) = vs := Option.some_inj.mp hvs
    rcases List.mem_append.mp hw with h1 | h1
    · cases hold : lookupVal m k with
      | none =>
        rw [hold] at h1
        simp at h1
      | some vs0 =>
        rw [hold] at h1
        exact hm k vs0 hold w h1
    · rw [List.mem_singleton.mp h1]
      exact hv
  · rw [if_neg hk] at hvs
    exact hm k' vs hvs w hw

theorem noSlashVals_step (m : List (String × List String)) (file : String)
    (hm : NoSlashVals m) : NoSlashVals (getAllFileNodesStep m file) := by
  have hlast := jsSplit_getLastD_noSlash file
  simp only [getAllFileNodesStep]
  by_cases h1 : (decide ((jsSplit file '/').length > 1) &&
      jsIncludes ((jsSplit file '/').getLastD ("")) '.') = true
  · rw [if_pos h1]
    by_cases h2 : (jsIncludes ((jsSplit file '/').getLastD ("")) '.' &&
        ((jsSplit file '/').length == 1)) = true
    · rw [if_pos h2]
      have hroot : file.data.contains '/' = false :=
        noSlash_of_single_segment file (Bool.and_elim_right h2)
      exact noSlashVals_appendAt _ _ _
        (noSlashVals_appendAt _ _ _ hm hlast) hroot
    · rw [if_neg h2]
      exact noSlashVals_appendAt _ _ _ hm hlast
  · rw [if_neg h1]
    by_cases h2 : (jsIncludes ((jsSplit file '/').getLastD ("")) '.' &&
        ((jsSplit file '/').length == 1)) = true
    · rw [if_pos h2]
      have hroot : file.data.contains '/' = false :=
        noSlash_of_single_segment file (Bool.and_elim_right h2)
      exact noSlashVals_appendAt _ _ _ hm hroot
    · rw [if_neg h2]
      exact hm

theorem noSlashVals_getAllFileNodes (files : List String) :
    NoSlashVals (getAllFileNodes files) := by
  have hbase : NoSlashVals [(("/"), [])] := by
    intro k vs hvs w hw
    have e : lookupVal [(("/"), ([] : List String))] k =
        if ("/") = k then some [] else none := rfl
    rw [e] at hvs
    by_cases h : ("/") = k
    · rw [if_pos h] at hvs
      obtain rfl : ([] : List String) = vs := Option.some_inj.mp hvs
      simp at hw
    · rw [if_neg h] at hvs
      exact absurd hvs (by simp)
  have haux : ∀ (fs : List String) (m : List (String × List String)),
      NoSlashVals m → NoSlashVals (List.foldl getAllFileNodesStep m fs) := by
    intro fs
    induction fs with
    | nil => exact fun m hm => hm
    | cons f t ih =>
      intro m hm
      rw [List.foldl_cons]
      exact ih _ (noSlashVals_step m f hm)
  exact haux files _ hbase

theorem fileDepthsList_append : ∀ a b : TreeNodes,
    fileDepthsList (TreeNodes.append a b) = fileDepthsList a ++ fileDepthsList b
  | .nil, _ => rfl
  | .cons h t, b => by
    simp [TreeNodes.append, fileDepthsList, fileDepthsList_append t b]

theorem fileDepths_ofList_join (l : List TreeNode) :
    fileDepthsList (TreeNodes.ofList l) = (l.map fileDepthsNode).join := by
  induction l with
  | nil => rfl
  | cons x xs ih => simp [TreeNodes.ofList, fileDepthsList, ih]

theorem fileDepths_files (vals : List String) (dir : String) :
    fileDepthsList (TreeNodes.ofList
      (vals.map (fun file => TreeNode.file file (dir ++ ("/") ++ file)))) =
      vals.map (fun v => (dir ++ ("/") ++ v, 0)) := by
  induction vals with
  | nil => rfl
  | cons v t ih =>
    simp [TreeNodes.ofList, fileDepthsList, fileDepthsNode, ih]

theorem fileDepthsNode_mkFolderNode (afn : List (String × List String)) (dir : String)
    (nestedDirs : TreeNodes) :
    fileDepthsNode (mkFolderNode afn dir nestedDirs) =
      (fileDepthsList nestedDirs ++
        ((lookupVal afn dir).getD []).map (fun v => (dir ++ ("/") ++ v, 0))).map
        (fun q : String × Nat => (q.1, q.2 + 1)) := by
  simp only [mkFolderNode, fileDepthsNode, fileDepthsList_append, fileDepths_files]

theorem jsSplit_length_append_file (dir v : String) (hv : v.data.contains '/' = false) :
    (jsSplit (dir ++ ("/") ++ v) '/').length = charCount dir '/' + 2 := by
  rw [jsSplit_glue, List.length_append, jsSplit_length, jsSplit_no_slash v hv]
  rfl

theorem contained_noSlash (afn : List (String × List String)) (hafn : NoSlashVals afn)
    (dir v : String) (hv : v ∈ (lookupVal afn dir).getD []) :
    v.data.contains '/' = false := by
  cases hlook : lookupVal afn dir with
  | none =>
    rw [hlook] at hv
    simp at hv
  | some vs =>
    rw [hlook] at hv
    exact hafn dir vs hlook v hv

theorem walk_fileDepths (folders : List String) (afn : List (String × List String))
    (hafn : NoSlashVals afn) :
    ∀ (fuel : Nat) (dirs : List String) (depth : Nat),
      (∀ x ∈ dirs, charCount x '/' = depth) →
      ∀ rel dd, (rel, dd) ∈ fileDepthsList (walk folders afn fuel dirs depth) →
      dd + depth + 1 = (jsSplit rel '/').length := by
  intro fuel
  induction fuel with
  | zero =>
    intro dirs depth hdirs rel dd hmem
    rw [walk, fileDepths_ofList_join] at hmem
    obtain ⟨sub, hsub, hmem2⟩ := List.mem_join.mp hmem
    obtain ⟨nd, hnd, rfl⟩ := List.mem_map.mp hsub
    obtain ⟨dir, hdir, rfl⟩ := List.mem_map.mp hnd
    rw [fileDepthsNode_mkFolderNode] at hmem2
    obtain ⟨q, hq, hqeq⟩ := List.mem_map.mp hmem2
    obtain ⟨q1, q2⟩ := q
    obtain ⟨rfl, rfl⟩ : q1 = rel ∧ q2 + 1 = dd := by simpa using hqeq
    rw [show fileDepthsList TreeNodes.nil = [] from rfl, List.nil_append] at hq
    obtain ⟨v, hv, hveq⟩ := List.mem_map.mp hq
    obtain ⟨rfl, rfl⟩ : dir ++ ("/") ++ v = q1 ∧ 0 = q2 := by simpa using hveq
    rw [jsSplit_length_append_file _ _ (contained_noSlash afn hafn dir v hv), hdirs dir hdir]
    omega
  | succ f ih =>
    intro dirs depth hdirs rel dd hmem
    rw [walk, fileDepths_ofList_join] at hmem
    obtain ⟨sub, hsub, hmem2⟩ := List.mem_join.mp hmem
    obtain ⟨nd, hnd, rfl⟩ := List.mem_map.mp hsub
    obtain ⟨dir, hdir, rfl⟩ := List.mem_map.mp hnd
    simp only at hmem2
    cases hfb : foldersByLength folders (depth + 1) with
    | some xs =>
      rw [hfb] at hmem2
      rw [fileDepthsNode_mkFolderNode] at hmem2
      obtain ⟨q, hq, hqeq⟩ := List.mem_map.mp hmem2
      obtain ⟨q1, q2⟩ := q
      obtain ⟨rfl, rfl⟩ : q1 = rel ∧ q2 + 1 = dd := by simpa using hqeq
      rcases List.mem_append.mp hq with hnest | hcont
      · have hxs : ∀ x ∈ xs.filter (fun x => jsStartsWith x dir),
            charCount x '/' = depth + 1 := by
          intro x hx
          exact (charCount_of_mem_foldersByLength hfb x (List.mem_of_mem_filter hx)).1
        have hnest2 : (q1, q2) ∈ fileDepthsList
            (walk folders afn f (xs.filter (fun x => jsStartsWith x dir)) (depth + 1)) :=
          hnest
        have hrec := ih (xs.filter (fun x => jsStartsWith x dir)) (depth + 1) hxs q1 q2 hnest2
        omega
      · obtain ⟨v, hv, hveq⟩ := List.mem_map.mp hcont
        obtain ⟨rfl, rfl⟩ : dir ++ ("/") ++ v = q1 ∧ 0 = q2 := by simpa using hveq
        rw [jsSplit_length_append_file _ _ (contained_noSlash afn hafn dir v hv),
          hdirs dir hdir]
        omega
    | none =>
      rw [hfb] at hmem2
      rw [fileDepthsNode_mkFolderNode] at hmem2
      obtain ⟨q, hq, hqeq⟩ := List.mem_map.mp hmem2
      obtain ⟨q1, q2⟩ := q
      obtain ⟨rfl, rfl⟩ : q1 = rel ∧ q2 + 1 = dd := by simpa using hqeq
      rw [show fileDepthsList TreeNodes.nil = [] from rfl, List.nil_append] at hq
      obtain ⟨v, hv, hveq⟩ := List.mem_map.mp hq
      obtain ⟨rfl, rfl⟩ : dir ++ ("/") ++ v = q1 ∧ 0 = q2 := by simpa using hveq
      rw [jsSplit_length_append_file _ _ (contained_noSlash afn hafn dir v hv),
        hdirs dir hdir]
      omega

/-- C8: every `FileNode` occurrence in the forest built by
`makeFileHierarchy` sits under a chain of exactly k nested `FolderNode`s,
where k is the number of slash-separated segments of its `relative`'s
directory part (segment count of the full path minus one). -/
theorem c8_file_depth (files : List String) (rel : String) (dd : Nat)
    (h : (rel, dd) ∈ fileDepthsList (makeFileHierarchy files)) :
    dd = (jsSplit rel '/').length - 1 := by
  simp only [makeFileHierarchy] at h
  cases hfb : foldersByLength (getAllFolders files) 0 with
  | none =>
    rw [hfb] at h
    exact absurd h (by simp [fileDepthsList])
  | some dirs =>
    rw [hfb] at h
    have hdirs : ∀ x ∈ dirs, charCount x '/' = 0 := by
      intro x hx
      exact (charCount_of_mem_foldersByLength hfb x hx).1
    have := walk_fileDepths (getAllFolders files) (getAllFileNodes files)
      (noSlashVals_getAllFileNodes files) (maxSlashCount (getAllFolders files))
      dirs 0 hdirs rel dd h
    omega

/-- C8 (witness): the depth theorem applied at the single input `a/b.js`,
whose directory part `a` has one segment and whose file node indeed sits
under exactly one folder. -/
theorem c8_witness :
    (("a/b.js"), 1) ∈ fileDepthsList (makeFileHierarchy [("a/b.js")]) ∧
      1 = (jsSplit ("a/b.js") '/').length - 1 :=
  ⟨by decide, c8_file_depth [("a/b.js")] ("a/b.js") 1 (by decide)⟩
